import Mathlib

/-
Verification development for the rag-mongo-demo repository.

The Express server (src/unnamed/part_001) and the batch embedding scripts
(src/src/scripts/create-embeddings-batch.js, src/unnamed/part_003) are
shallowly embedded below.  JavaScript numbers that only ever hold exact
search scores, weights and similarity ratios are modelled as rationals (ℚ);
machine integers (counters, ranks, millisecond delays) as Nat.  The
process-wide `jobs` Map and the per-query `resultMap` / `seenTitles` Maps
are modelled as association lists with JavaScript Map semantics (`mapSet`
replaces in place, `mapGet` looks up the first binding).
-/

/-- JavaScript `Map.prototype.set` on an association list: if the key is
already bound, replace its value in place (keeping its position in the
insertion order); otherwise append the new binding at the end. -/
def mapSet {α : Type} (m : List (String × α)) (k : String) (v : α) :
    List (String × α) :=
  match m with
  | [] => [(k, v)]
  | (k0, v0) :: rest => if k0 = k then (k, v) :: rest else (k0, v0) :: mapSet rest k v

/-- JavaScript `Map.prototype.get`: the value of the first binding whose key
matches, if any. -/
def mapGet {α : Type} (m : List (String × α)) (k : String) : Option α :=
  match m with
  | [] => none
  | (k0, v0) :: rest => if k0 = k then some v0 else mapGet rest k

-- ======================== Job Tracking (part_001 lines 1096-1133) ========================

/-- One element of a job's `results` array: `{file, status, output}` on a
clean exit of the worker child process, `{file, status, error}` otherwise.
The free-text `output`/`error` payload is the `info` field. -/
structure FileResult where
  file : String
  status : String
  info : String
  deriving Repr, DecidableEq

/-- The job record stored in the in-memory `jobs` Map
(part_001 `createJob`).  `startTime`/`endTime` wall-clock fields are not
modelled; `currentFile` is `none` for JavaScript `null`. -/
structure Job where
  id : String
  files : List String
  status : String
  progress : Nat
  total : Nat
  results : List FileResult
  currentFile : Option String
  deriving Repr, DecidableEq

/-- part_001 `createJob(files)`: registers a fresh job under the generated
`jobId` (the random identifier generation is abstracted into the `jobId`
argument) with status `in-progress` and empty progress. -/
def createJob (jobs : List (String × Job)) (jobId : String) (files : List String) :
    List (String × Job) :=
  mapSet jobs jobId
    { id := jobId
      files := files
      status := "in-progress"
      progress := 0
      total := files.length
      results := []
      currentFile := none }

/-- part_001 `updateJob(jobId, updates)`: `Object.assign` the updates onto
the stored job when the id is registered, silently do nothing otherwise.
The `updates` object is modelled as the field transformation it performs. -/
def updateJob (jobs : List (String × Job)) (jobId : String) (updates : Job → Job) :
    List (String × Job) :=
  match mapGet jobs jobId with
  | some job => mapSet jobs jobId (updates job)
  | none => jobs

/-- part_001 `getJob(jobId)`. -/
def getJob (jobs : List (String × Job)) (jobId : String) : Option Job :=
  mapGet jobs jobId

-- ============== Ingestion driver (part_001 `processEmbeddings`, lines 1499-1695) ==============

/-- Outcome of processing one file: the spawned child process exits 0,
exits nonzero, or the surrounding try block throws. -/
inductive FileOutcome where
  | exitZero (output : String)
  | exitNonZero (err : String)
  | threw (msg : String)
  deriving Repr, DecidableEq

/-- The per-file result object pushed onto `results` in `processEmbeddings`:
status `completed` on exit code 0, status `failed` otherwise. -/
def fileResult (fileName : String) (o : FileOutcome) : FileResult :=
  match o with
  | .exitZero out => { file := fileName, status := "completed", info := out }
  | .exitNonZero e => { file := fileName, status := "failed", info := e }
  | .threw m => { file := fileName, status := "failed", info := m }

/-- The `for (const fileName of files)` loop of `processEmbeddings`: set
`currentFile`, run the child (outcome supplied alongside each file name),
push the per-file result, and report `progress`/`results` into the job. -/
def processLoop (jobId : String) :
    List (String × FileOutcome) → List FileResult → List (String × Job) →
    List (String × Job) × List FileResult
  | [], results, jobs => (jobs, results)
  | (fileName, o) :: rest, results, jobs =>
    let jobs1 := updateJob jobs jobId (fun j => { j with currentFile := some fileName })
    let results1 := results ++ [fileResult fileName o]
    let jobs2 := updateJob jobs1 jobId
      (fun j => { j with progress := results1.length, results := results1 })
    processLoop jobId rest results1 jobs2

/-- part_001 `processEmbeddings(jobId, files)`: run the loop over all files,
then mark the job `completed` with the final results list.  There is no
job-level `failed` path: every exit of the function goes through this final
update. -/
def processEmbeddings (jobId : String) (files : List (String × FileOutcome))
    (jobs : List (String × Job)) : List (String × Job) :=
  let p := processLoop jobId files [] jobs
  updateJob p.1 jobId (fun j => { j with status := "completed", results := p.2 })

-- ============== Batched persistence writer (create-embeddings-batch.js lines 122-154) ==============

/-- A successful embedding payload returned by the provider. -/
structure EmbedSuccess where
  embedding : List ℚ
  cost : ℚ
  tokens : Nat
  deriving Repr, DecidableEq

/-- One element of a scheduler batch as produced by
`generateTestcaseEmbedding`: either a successful embedding or an error
record `{testcase, error, cost: 0, tokens: 0}`.  `error = none` on
success. -/
structure ItemResult where
  error : Option String
  embedding : List ℚ
  cost : ℚ
  tokens : Nat
  deriving Repr, DecidableEq

/-- The success return value of `generateTestcaseEmbedding`. -/
def successResult (v : EmbedSuccess) : ItemResult :=
  { error := none, embedding := v.embedding, cost := v.cost, tokens := v.tokens }

/-- The failure return value of `generateTestcaseEmbedding` after retries
are exhausted. -/
def failureResult (msg : String) : ItemResult :=
  { error := some msg, embedding := [], cost := 0, tokens := 0 }

/-- JavaScript truthiness of the optional `error` string: `undefined` and
the empty string are falsy. -/
def jsTruthyStr (o : Option String) : Bool :=
  match o with
  | none => false
  | some s => !(s = "")

/-- Outcome of the `insertMany(..., {ordered: false})` call: either it
returns normally (in which case the driver inserted every document) or it
throws a bulk-write error. -/
inductive WriteOutcome where
  | ok
  | threw (msg : String)
  deriving Repr, DecidableEq

/-- create-embeddings-batch.js `insertTestcasesBatch(collection, batch)`:
returns the `{inserted, failed}` counts.  Error items are filtered out
before writing; an empty document list short-circuits; a thrown bulk write
reports the whole batch as failed. -/
def insertTestcasesBatch (batch : List ItemResult) (w : WriteOutcome) : Nat × Nat :=
  if batch.length = 0 then (0, 0)
  else
    let documents := batch.filter (fun item => !(jsTruthyStr item.error))
    if documents.length = 0 then (0, batch.length)
    else
      match w with
      | .ok => (documents.length, batch.length - documents.length)
      | .threw _ => (0, batch.length)

-- ============== Retry with backoff (create-embeddings-batch.js lines 42-117, part_003 lines 42-113) ==============

/-- Outcome of one embedding API attempt in `generateTestcaseEmbedding`
(create-embeddings-batch.js): the axios call resolves with a usable
embedding, or the attempt throws with an error message. -/
inductive AttemptOutcome where
  | ok (v : EmbedSuccess)
  | err (msg : String)

/-- The `for (let attempt = 1; attempt <= maxRetries; attempt++)` retry
loop of `generateTestcaseEmbedding`, with `fuel` counting the attempts
still allowed.  Returns the item result together with the list of backoff
delays (milliseconds) actually awaited: the source sleeps
`1000 * attempt` after a failed attempt when `attempt < maxRetries`. -/
def retryGo (outcomes : Nat → AttemptOutcome) (maxRetries : Nat) :
    Nat → Nat → String → ItemResult × List Nat
  | 0, _, lastErr => (failureResult lastErr, [])
  | fuel + 1, attempt, _ =>
    match outcomes attempt with
    | .ok v => (successResult v, [])
    | .err m =>
      if attempt < maxRetries then
        let r := retryGo outcomes maxRetries fuel (attempt + 1) m
        (r.1, 1000 * attempt :: r.2)
      else
        retryGo outcomes maxRetries fuel (attempt + 1) m

/-- create-embeddings-batch.js `generateTestcaseEmbedding(testcase, ...)`
with the per-attempt outcomes abstracted into a trace: attempts start at 1
and at most `maxRetries` are made (source default 3). -/
def generateTestcaseEmbedding (outcomes : Nat → AttemptOutcome) (maxRetries : Nat) :
    ItemResult × List Nat :=
  retryGo outcomes maxRetries maxRetries 1 ""

/-- One scheduler batch: `batch.map((testcase, i) => generateTestcaseEmbedding(...))`
joined by `Promise.allSettled`; every item yields exactly one result, and a
failed item yields an error result instead of aborting the batch. -/
def processBatch (items : List (Nat → AttemptOutcome)) (maxRetries : Nat) :
    List ItemResult :=
  items.map (fun outcomes => (generateTestcaseEmbedding outcomes maxRetries).1)

/-- Outcome of one attempt in part_003 `generateEmbeddingDirect`: success,
an HTTP 429 rate-limit error, or any other error. -/
inductive DirectOutcome where
  | ok (v : EmbedSuccess)
  | rateLimited
  | err (msg : String)

/-- part_003 backoff for a 429 error:
`Math.min(1000 * Math.pow(2, attempt), 10000)`. -/
def rateLimitDelay (attempt : Nat) : Nat :=
  min (1000 * 2 ^ attempt) 10000

/-- The retry loop of part_003 `generateEmbeddingDirect`: a 429 waits
`rateLimitDelay attempt` (even on the final attempt), any other error
waits `1000 * attempt` when `attempt < maxRetries`. -/
def directRetryGo (outcomes : Nat → DirectOutcome) (maxRetries : Nat) :
    Nat → Nat → String → ItemResult × List Nat
  | 0, _, lastErr => (failureResult lastErr, [])
  | fuel + 1, attempt, _ =>
    match outcomes attempt with
    | .ok v => (successResult v, [])
    | .rateLimited =>
      let r := directRetryGo outcomes maxRetries fuel (attempt + 1) "429"
      (r.1, rateLimitDelay attempt :: r.2)
    | .err m =>
      if attempt < maxRetries then
        let r := directRetryGo outcomes maxRetries fuel (attempt + 1) m
        (r.1, 1000 * attempt :: r.2)
      else
        directRetryGo outcomes maxRetries fuel (attempt + 1) m

/-- part_003 `generateEmbeddingDirect(testcase, ...)`. -/
def generateEmbeddingDirect (outcomes : Nat → DirectOutcome) (maxRetries : Nat) :
    ItemResult × List Nat :=
  directRetryGo outcomes maxRetries maxRetries 1 ""

-- ============== Score normalization and rerank fusion (part_001 lines 2910-3160) ==============

/-- JavaScript `Math.min(...scores, z)`: the minimum of the spread scores
and the extra literal argument `z`. -/
def jsMathMin (scores : List ℚ) (z : ℚ) : ℚ := scores.foldr min z

/-- JavaScript `Math.max(...scores, z)`. -/
def jsMathMax (scores : List ℚ) (z : ℚ) : ℚ := scores.foldr max z

/-- part_001 rerank endpoint `normalizeBM25(score, minScore, maxScore)`. -/
def normalizeBM25 (score minScore maxScore : ℚ) : ℚ :=
  if maxScore = minScore then 1 else (score - minScore) / (maxScore - minScore)

/-- part_001 rerank endpoint `normalizeVector(score, minScore, maxScore)`;
textually identical to `normalizeBM25`. -/
def normalizeVector (score minScore maxScore : ℚ) : ℚ :=
  if maxScore = minScore then 1 else (score - minScore) / (maxScore - minScore)

/-- A BM25 search hit as consumed by the fusion code: the stringified
MongoDB document id and the `$meta: "searchScore"` value. -/
structure BM25Doc where
  docId : String
  bm25Score : ℚ
  deriving Repr, DecidableEq

/-- A vector search hit: document id and `$meta: "vectorSearchScore"`. -/
structure VectorDoc where
  docId : String
  vectorScore : ℚ
  deriving Repr, DecidableEq

/-- An entry of the rerank endpoint's `resultMap`.  `none` in a rank field
encodes both JavaScript `null` (explicitly stored for BM25-only docs) and
an absent field (vector-only docs never receive `bm25Rank`): both are
falsy where the ranks are consumed. -/
structure RerankEntry where
  bm25Score : ℚ
  bm25Normalized : ℚ
  bm25Rank : Option Nat
  vectorScore : ℚ
  vectorNormalized : ℚ
  vectorRank : Option Nat
  foundIn : String
  deriving Repr, DecidableEq

/-- The object stored for a BM25 hit at 0-based position `index`
(`bm25Rank: index + 1`). -/
def mkBM25Entry (d : BM25Doc) (index : Nat) (minB maxB : ℚ) : RerankEntry :=
  { bm25Score := d.bm25Score
    bm25Normalized := normalizeBM25 d.bm25Score minB maxB
    bm25Rank := some (index + 1)
    vectorScore := 0
    vectorNormalized := 0
    vectorRank := none
    foundIn := "bm25" }

/-- `bm25Results.forEach((doc, index) => resultMap.set(...))`. -/
def insertBM25Docs (minB maxB : ℚ) :
    List BM25Doc → Nat → List (String × RerankEntry) → List (String × RerankEntry)
  | [], _, m => m
  | d :: ds, index, m =>
    insertBM25Docs minB maxB ds (index + 1) (mapSet m d.docId (mkBM25Entry d index minB maxB))

/-- The body of `vectorResults.forEach((doc, index) => ...)`: merge into an
existing entry (setting `foundIn: 'both'`) or insert a vector-only entry. -/
def mergeVectorDoc (d : VectorDoc) (index : Nat) (minV maxV : ℚ)
    (m : List (String × RerankEntry)) : List (String × RerankEntry) :=
  let normalizedScore := normalizeVector d.vectorScore minV maxV
  match mapGet m d.docId with
  | some existing =>
    mapSet m d.docId
      { existing with
        vectorScore := d.vectorScore
        vectorNormalized := normalizedScore
        vectorRank := some (index + 1)
        foundIn := "both" }
  | none =>
    mapSet m d.docId
      { bm25Score := 0
        bm25Normalized := 0
        bm25Rank := none
        vectorScore := d.vectorScore
        vectorNormalized := normalizedScore
        vectorRank := some (index + 1)
        foundIn := "vector" }

/-- `vectorResults.forEach(...)` over the whole vector result list. -/
def insertVectorDocs (minV maxV : ℚ) :
    List VectorDoc → Nat → List (String × RerankEntry) → List (String × RerankEntry)
  | [], _, m => m
  | d :: ds, index, m =>
    insertVectorDocs minV maxV ds (index + 1) (mergeVectorDoc d index minV maxV m)

/-- The rerank endpoint's combination step (part_001 lines 3029-3082):
min/max are computed as `Math.min(...scores, 0)` / `Math.max(...scores, 1)`
and both result lists are folded into `resultMap`. -/
def rerankCombine (bm25Results : List BM25Doc) (vectorResults : List VectorDoc) :
    List (String × RerankEntry) :=
  let bm25Scores := bm25Results.map (fun r => r.bm25Score)
  let vectorScores := vectorResults.map (fun r => r.vectorScore)
  let minBM25 := jsMathMin bm25Scores 0
  let maxBM25 := jsMathMax bm25Scores 1
  let minVector := jsMathMin vectorScores 0
  let maxVector := jsMathMax vectorScores 1
  insertVectorDocs minVector maxVector vectorResults 0
    (insertBM25Docs minBM25 maxBM25 bm25Results 0 [])

/-- One RRF term of part_001's `fusionMethod === 'rrf'` branch:
`doc.bm25Rank ? 1 / (k + doc.bm25Rank) : 0` with `k = 60`.  JavaScript
truthiness makes `null`, `undefined` and `0` all map to 0. -/
def rrfTermOf (rank : Option Nat) : ℚ :=
  match rank with
  | none => 0
  | some 0 => 0
  | some r => 1 / (60 + (r : ℚ))

/-- `fusedScore = bm25RRF + vectorRRF` of the RRF branch. -/
def rrfFusedScore (bm25Rank vectorRank : Option Nat) : ℚ :=
  rrfTermOf bm25Rank + rrfTermOf vectorRank

/-- A combined entry together with its fused score. -/
structure FusedEntry where
  entry : RerankEntry
  fusedScore : ℚ
  deriving Repr, DecidableEq

/-- `allResults.map(doc => ({...doc, fusedScore}))` for `fusionMethod === 'rrf'`. -/
def applyRRFFusion (m : List (String × RerankEntry)) : List (String × FusedEntry) :=
  m.map (fun p => (p.1, { entry := p.2, fusedScore := rrfFusedScore p.2.bm25Rank p.2.vectorRank }))

/-- One-based rank of a document id in one method's result list, as the
claims phrase it (`rank_method`); `none` when the id is absent from that
method's list. -/
def rankOf (ids : List String) (id : String) : Option Nat :=
  match ids with
  | [] => none
  | k :: rest => if k = id then some 1 else (rankOf rest id).map (fun r => r + 1)

/-- The per-method contribution claimed by C6: `1 / (60 + rank_method)`
when the candidate is ranked by the method, 0 when absent. -/
def claimedRRFContribution (ids : List String) (id : String) : ℚ :=
  match rankOf ids id with
  | some r => 1 / (60 + (r : ℚ))
  | none => 0

-- ============== Deduplication (part_001 lines 1814-1865 and 2224-2233) ==============

/-- The whitespace class matched by the JavaScript regex `\s` (restricted
to the ASCII characters that can occur in titles). -/
def jsIsWhitespace (c : Char) : Bool :=
  c = ' ' || c = '\t' || c = '\n' || c = '\r' || c = '\x0b' || c = '\x0c'

/-- Collect the maximal runs of non-whitespace characters, accumulating the
current run in `acc` (reversed). -/
def wordsAux : List Char → List Char → List String
  | [], [] => []
  | [], acc => [String.mk acc.reverse]
  | c :: cs, acc =>
    if jsIsWhitespace c then
      match acc with
      | [] => wordsAux cs []
      | _ => String.mk acc.reverse :: wordsAux cs []
    else
      wordsAux cs (c :: acc)

/-- JavaScript `s.split(/\s+/)`: the empty string gives `[""]`; a leading
whitespace run contributes a leading empty element and a trailing run a
trailing one; interior runs are collapsed. -/
def jsSplitWs (s : String) : List String :=
  match s.toList with
  | [] => [""]
  | c :: cs =>
    let lead := if jsIsWhitespace c then [""] else ([] : List String)
    let trail := if jsIsWhitespace ((c :: cs).getLastD c) then [""] else ([] : List String)
    lead ++ wordsAux (c :: cs) [] ++ trail

/-- JavaScript `s.toLowerCase()` (ASCII), written over the character list
so that it evaluates structurally. -/
def jsToLower (s : String) : String :=
  String.mk (s.toList.map Char.toLower)

/-- `new Set(text.toLowerCase().split(/\s+/))`: the distinct tokens of a
string.  Only the size of the set and membership are consumed, so the
order produced by `List.dedup` is immaterial. -/
def tokenSet (s : String) : List String :=
  (jsSplitWs (jsToLower s)).dedup

/-- part_001 `calculateTextSimilarity(text1, text2)`: token-set Jaccard
similarity, `|intersection| / |union|`. -/
def calculateTextSimilarity (text1 text2 : String) : ℚ :=
  let words1 := tokenSet text1
  let words2 := tokenSet text2
  let intersection := words1.filter (fun w => words2.contains w)
  let union := (words1 ++ words2).dedup
  (intersection.length : ℚ) / (union.length : ℚ)

/-- An element of the `results` array sent to `/api/search/deduplicate`:
only the fields the endpoint reads are modelled. -/
structure SearchResult where
  id : String
  title : Option String
  deriving Repr, DecidableEq

/-- `const title = result.title?.toLowerCase() || ''`. -/
def effTitle (r : SearchResult) : String :=
  jsToLower (r.title.getD "")

/-- An element of the endpoint's `duplicates` output:
`{...result, duplicateOf: seenResult.id, similarity}` (the `toFixed(3)`
string formatting of the similarity is not modelled). -/
structure DupEntry where
  result : SearchResult
  duplicateOf : String
  similarity : ℚ
  deriving Repr, DecidableEq

/-- The inner `for (const [seenTitle, seenResult] of seenTitles.entries())`
loop: the first seen title whose similarity reaches the threshold wins. -/
def findDup (threshold : ℚ) (title : String) :
    List (String × SearchResult) → Option (String × ℚ)
  | [] => none
  | (seenTitle, seenResult) :: rest =>
    let similarity := calculateTextSimilarity title seenTitle
    if threshold ≤ similarity then some (seenResult.id, similarity)
    else findDup threshold title rest

/-- The outer `for (const result of results)` loop of
`/api/search/deduplicate`, carrying the `seenTitles` Map: a result whose
similarity to some seen title reaches the threshold goes to `duplicates`,
any other result is kept in `deduplicated` and its title added to the
Map. -/
def dedupeLoop (threshold : ℚ) :
    List SearchResult → List (String × SearchResult) →
    List SearchResult × List DupEntry
  | [], _ => ([], [])
  | r :: rest, seen =>
    match findDup threshold (effTitle r) seen with
    | some (dupId, sim) =>
      let p := dedupeLoop threshold rest seen
      (p.1, { result := r, duplicateOf := dupId, similarity := sim } :: p.2)
    | none =>
      let p := dedupeLoop threshold rest (mapSet seen (effTitle r) r)
      (r :: p.1, p.2)

/-- The `/api/search/deduplicate` endpoint body (threshold default 0.85):
returns the `deduplicated` primary list and the `duplicates` list. -/
def deduplicateResults (threshold : ℚ) (results : List SearchResult) :
    List SearchResult × List DupEntry :=
  dedupeLoop threshold results []

-- ============== Hybrid search endpoint (part_001 lines 2510-2852) ==============

/-- An entry of the hybrid endpoint's `resultMap`. -/
structure HybridEntry where
  docId : String
  bm25Score : ℚ
  bm25ScoreNormalized : ℚ
  vectorScore : ℚ
  vectorScoreNormalized : ℚ
  hybridScore : ℚ
  foundIn : String
  deriving Repr, DecidableEq

/-- `bm25Results.forEach(...)` of the hybrid endpoint (only run when BM25
was not skipped). -/
def addBM25Hybrid (bm25Min bm25Range bm25Weight : ℚ) :
    List BM25Doc → List (String × HybridEntry) → List (String × HybridEntry)
  | [], m => m
  | r :: rest, m =>
    let normalizedScore := (r.bm25Score - bm25Min) / bm25Range
    addBM25Hybrid bm25Min bm25Range bm25Weight rest
      (mapSet m r.docId
        { docId := r.docId
          bm25Score := r.bm25Score
          bm25ScoreNormalized := normalizedScore
          vectorScore := 0
          vectorScoreNormalized := 0
          hybridScore := normalizedScore * bm25Weight
          foundIn := "bm25" })

/-- `vectorResults.forEach(...)` of the hybrid endpoint: merge into an
existing entry (`foundIn: 'both'`) or insert a new one; when BM25 was
skipped a new entry is tagged `vector-only` and its hybrid score is the
unweighted normalized vector score. -/
def addVectorHybrid (skipBM25 : Bool) (vectorMin vectorRange vectorWeight : ℚ) :
    List VectorDoc → List (String × HybridEntry) → List (String × HybridEntry)
  | [], m => m
  | r :: rest, m =>
    let normalizedScore := (r.vectorScore - vectorMin) / vectorRange
    let m2 :=
      match mapGet m r.docId with
      | some existing =>
        mapSet m r.docId
          { existing with
            vectorScore := r.vectorScore
            vectorScoreNormalized := normalizedScore
            hybridScore := existing.hybridScore + normalizedScore * vectorWeight
            foundIn := "both" }
      | none =>
        mapSet m r.docId
          { docId := r.docId
            bm25Score := 0
            bm25ScoreNormalized := 0
            vectorScore := r.vectorScore
            vectorScoreNormalized := normalizedScore
            hybridScore := if skipBM25 then normalizedScore else normalizedScore * vectorWeight
            foundIn := if skipBM25 then "vector-only" else "vector" }
    addVectorHybrid skipBM25 vectorMin vectorRange vectorWeight rest m2

/-- Stable insertion into a list sorted by descending `hybridScore`. -/
def insertByHybridScoreDesc (x : HybridEntry) : List HybridEntry → List HybridEntry
  | [] => [x]
  | y :: ys =>
    if x.hybridScore ≤ y.hybridScore then y :: insertByHybridScoreDesc x ys
    else x :: y :: ys

/-- `combinedResults.sort((a, b) => b.hybridScore - a.hybridScore)`:
JavaScript Array.prototype.sort is stable, realized here as a stable
insertion sort. -/
def sortByHybridScoreDesc (l : List HybridEntry) : List HybridEntry :=
  l.foldl (fun acc x => insertByHybridScoreDesc x acc) []

/-- The hybrid endpoint's observable response: an HTTP 400 validation error
or the success payload fields relevant here (`searchType`, `bm25Skipped`,
`results`). -/
inductive HybridResponse where
  | clientError (status : Nat) (message : String)
  | success (searchType : String) (bm25Skipped : Bool) (results : List HybridEntry)
  deriving Repr, DecidableEq

/-- POST /api/search/hybrid (part_001), for a request without field
filters: index validation with the user-stories-only BM25 fallback
(`skipBM25 = useUserStories && !bm25Validation.ok`; a missing BM25 index on
any other collection returns a 400 error), normalization with
`Math.max(...scores, 1)` / `Math.min(...scores, 0)` and `range || 1`,
combination, sort by descending hybrid score, and the `limit` slice.  The
hit lists the two store searches would return are passed as
`bm25Found`/`vectorFound`; when BM25 is skipped the BM25 search never runs,
so its result list stays empty. -/
def hybridSearch (useUserStories bm25IndexOk vectorIndexOk : Bool)
    (bm25Weight vectorWeight : ℚ) (limit : Nat)
    (bm25Found : List BM25Doc) (vectorFound : List VectorDoc) : HybridResponse :=
  let skipBM25 := useUserStories && !bm25IndexOk
  if !skipBM25 && !bm25IndexOk then .clientError 400 "bm25 index validation failed"
  else if !vectorIndexOk then .clientError 400 "vector index validation failed"
  else
    let bm25Results := if skipBM25 then [] else bm25Found
    let bm25Scores := bm25Results.map (fun r => r.bm25Score)
    let bm25Max := if 0 < bm25Scores.length then jsMathMax bm25Scores 1 else 1
    let bm25Min := if 0 < bm25Scores.length then jsMathMin bm25Scores 0 else 0
    let bm25Range := if bm25Max - bm25Min = 0 then 1 else bm25Max - bm25Min
    let vectorScores := vectorFound.map (fun r => r.vectorScore)
    let vectorMax := jsMathMax vectorScores 1
    let vectorMin := jsMathMin vectorScores 0
    let vectorRange := if vectorMax - vectorMin = 0 then 1 else vectorMax - vectorMin
    let m1 := if skipBM25 then [] else addBM25Hybrid bm25Min bm25Range bm25Weight bm25Results []
    let m2 := addVectorHybrid skipBM25 vectorMin vectorRange vectorWeight vectorFound m1
    let combinedResults := sortByHybridScoreDesc (m2.map Prod.snd)
    .success (if skipBM25 then "vector-only" else "hybrid") skipBM25 (combinedResults.take limit)

/-- Concrete example values used to instantiate the fusion theorems. -/
def exampleBM25Doc : BM25Doc :=
  { docId := "x"
    bm25Score := 3 }

/-- The combined entry the rerank pipeline builds for `exampleBM25Doc`
alone: score 3 normalizes to (3 - 0)/(3 - 0) = 1, rank 1. -/
def exampleRerankEntry : RerankEntry :=
  { bm25Score := 3
    bm25Normalized := 1
    bm25Rank := some 1
    vectorScore := 0
    vectorNormalized := 0
    vectorRank := none
    foundIn := "bm25" }

/-- The fused entry for `exampleBM25Doc`: 1/(60 + 1) + 0. -/
def exampleFusedEntry : FusedEntry :=
  { entry := exampleRerankEntry
    fusedScore := 1/61 }

-- ======================== Theorems ========================

theorem mapGet_mapSet_self {α : Type} (m : List (String × α)) (k : String) (v : α) :
    mapGet (mapSet m k v) k = some v := by
  induction m with
  | nil => simp [mapSet, mapGet]
  | cons hd tl ih =>
    obtain ⟨k0, v0⟩ := hd
    by_cases h : k0 = k
    · simp [mapSet, mapGet, h]
    · simp [mapSet, mapGet, h, ih]

theorem mapGet_mapSet_ne {α : Type} (m : List (String × α)) (k k2 : String) (v : α)
    (h : k ≠ k2) : mapGet (mapSet m k v) k2 = mapGet m k2 := by
  induction m with
  | nil => simp [mapSet, mapGet, h]
  | cons hd tl ih =>
    obtain ⟨k0, v0⟩ := hd
    by_cases h0 : k0 = k
    · subst h0
      simp [mapSet, mapGet, h]
    · simp [mapSet, mapGet, h0, ih]

/-- C4: for every batch handed to the batched persistence writer in one
call, the reported insertion count plus the reported failure count equals
the number of records in the batch, whether the unordered bulk write
returns normally, every record was filtered out as an error result, or the
bulk write throws. -/
theorem c4_writer_counts_add_up (batch : List ItemResult) (w : WriteOutcome) :
    (insertTestcasesBatch batch w).1 + (insertTestcasesBatch batch w).2 = batch.length := by
  unfold insertTestcasesBatch
  by_cases h0 : batch.length = 0
  · simp [h0]
  · simp only [h0, if_false]
    by_cases h1 : (batch.filter (fun item => !(jsTruthyStr item.error))).length = 0
    · simp [h1]
    · simp only [h1, if_false]
      cases w with
      | ok =>
        simp only
        exact Nat.add_sub_cancel' (List.length_filter_le _ batch)
      | threw m => simp

/-- C10: updating a job id that is not in the registry is a silent no-op:
the registry is unchanged (no job created, none modified) and a subsequent
lookup still finds nothing. -/
theorem c10_update_missing_job_noop (jobs : List (String × Job)) (jobId : String)
    (updates : Job → Job) (h : getJob jobs jobId = none) :
    updateJob jobs jobId updates = jobs ∧
      getJob (updateJob jobs jobId updates) jobId = none := by
  have h2 : updateJob jobs jobId updates = jobs := by
    unfold updateJob
    unfold getJob at h
    simp [h]
  exact ⟨h2, by rw [h2]; exact h⟩

/-- C10 witness: a concrete registry without the job id. -/
theorem c10_update_missing_job_noop_witness :
    updateJob [] "job-1" (fun j => { j with progress := 5 }) = [] ∧
      getJob (updateJob [] "job-1" (fun j => { j with progress := 5 })) "job-1" = none :=
  c10_update_missing_job_noop [] "job-1" (fun j => { j with progress := 5 }) rfl

theorem getJob_updateJob_present (jobs : List (String × Job)) (jobId : String)
    (updates : Job → Job) (j : Job) (h : getJob jobs jobId = some j) :
    getJob (updateJob jobs jobId updates) jobId = some (updates j) := by
  unfold updateJob
  unfold getJob at h ⊢
  simp [h, mapGet_mapSet_self]

theorem processLoop_spec (jobId : String) :
    ∀ (files : List (String × FileOutcome)) (results : List FileResult)
      (jobs : List (String × Job)) (j : Job), getJob jobs jobId = some j →
      (processLoop jobId files results jobs).2
          = results ++ files.map (fun p => fileResult p.1 p.2) ∧
        ∃ j2, getJob (processLoop jobId files results jobs).1 jobId = some j2 ∧
          j2.status = j.status ∧
          j2.progress = (match files with
            | [] => j.progress
            | _ :: _ => results.length + files.length) := by
  intro files
  induction files with
  | nil =>
    intro results jobs j h
    exact ⟨by simp [processLoop], j, h, rfl, rfl⟩
  | cons hd tl ih =>
    intro results jobs j h
    obtain ⟨fileName, o⟩ := hd
    have h1 := getJob_updateJob_present jobs jobId
      (fun j => { j with currentFile := some fileName }) j h
    have h2 := getJob_updateJob_present _ jobId
      (fun j2 => { j2 with
        progress := (results ++ [fileResult fileName o]).length
        results := results ++ [fileResult fileName o] }) _ h1
    obtain ⟨hres, j2, hget, hstat, hprog⟩ := ih (results ++ [fileResult fileName o]) _ _ h2
    constructor
    · simp only [processLoop]
      rw [hres]
      simp
    · refine ⟨j2, ?_, ?_, ?_⟩
      · simpa [processLoop] using hget
      · simpa using hstat
      · cases tl with
        | nil =>
          simp only at hprog
          simp [hprog, List.length_append]
        | cons a b =>
          simp only at hprog
          simp [hprog, List.length_append]
          all_goals omega

/-- C5: an ingestion job is created with status `in-progress` and, after
`processEmbeddings` has attempted every target file, it ends with status
`completed` regardless of the per-file outcomes (there is no job-level
`failed` status, even when every file failed); the individual failures are
recorded in the per-item results list, and the progress counter reaches the
number of files. -/
theorem c5_job_lifecycle (jobs0 : List (String × Job)) (jobId : String)
    (files : List (String × FileOutcome)) :
    (getJob (createJob jobs0 jobId (files.map Prod.fst)) jobId).map Job.status
        = some "in-progress" ∧
      ∃ j, getJob (processEmbeddings jobId files
              (createJob jobs0 jobId (files.map Prod.fst))) jobId = some j ∧
        j.status = "completed" ∧
        j.results = files.map (fun p => fileResult p.1 p.2) ∧
        j.progress = files.length := by
  have hcreate : getJob (createJob jobs0 jobId (files.map Prod.fst)) jobId
      = some { id := jobId, files := files.map Prod.fst, status := "in-progress",
               progress := 0, total := (files.map Prod.fst).length, results := [],
               currentFile := none } := by
    unfold createJob getJob
    exact mapGet_mapSet_self _ _ _
  constructor
  · rw [hcreate]; rfl
  · obtain ⟨hres, j2, hget, hstat, hprog⟩ :=
      processLoop_spec jobId files [] (createJob jobs0 jobId (files.map Prod.fst)) _ hcreate
    refine ⟨{ j2 with status := "completed", results := (processLoop jobId files [] (createJob jobs0 jobId (files.map Prod.fst))).2 }, ?_, rfl, ?_, ?_⟩
    · unfold processEmbeddings
      exact getJob_updateJob_present _ _ _ _ hget
    · rw [hres]; simp
    · simp only
      cases files with
      | nil => simpa using hprog
      | cons a b => simp only at hprog; simp [hprog]

theorem jsMathMin_le_extra (scores : List ℚ) (z : ℚ) : jsMathMin scores z ≤ z := by
  induction scores with
  | nil => simp [jsMathMin]
  | cons a tl ih => exact le_trans (min_le_right a _) ih

theorem jsMathMin_le_mem (scores : List ℚ) (z s : ℚ) (hs : s ∈ scores) :
    jsMathMin scores z ≤ s := by
  induction scores with
  | nil => cases hs
  | cons a tl ih =>
    rcases List.mem_cons.mp hs with h | h
    · subst h; exact min_le_left _ _
    · exact le_trans (min_le_right a _) (ih h)

theorem extra_le_jsMathMax (scores : List ℚ) (z : ℚ) : z ≤ jsMathMax scores z := by
  induction scores with
  | nil => simp [jsMathMax]
  | cons a tl ih => exact le_trans ih (le_max_right a _)

theorem mem_le_jsMathMax (scores : List ℚ) (z s : ℚ) (hs : s ∈ scores) :
    s ≤ jsMathMax scores z := by
  induction scores with
  | nil => cases hs
  | cons a tl ih =>
    rcases List.mem_cons.mp hs with h | h
    · subst h; exact le_max_left _ _
    · exact le_trans (ih h) (le_max_right a _)

theorem jsMathMin_const (v z : ℚ) :
    ∀ scores : List ℚ, scores ≠ [] → (∀ x ∈ scores, x = v) →
      jsMathMin scores z = min v z := by
  intro scores
  induction scores with
  | nil => intro h; cases h rfl
  | cons a tl ih =>
    intro _ hall
    have ha : a = v := hall a (List.mem_cons_self _ _)
    cases tl with
    | nil => simp [jsMathMin, ha]
    | cons b tl2 =>
      have h2 := ih (by simp) (fun x hx => hall x (List.mem_cons_of_mem _ hx))
      show min a (jsMathMin (b :: tl2) z) = min v z
      rw [h2, ha, ← min_assoc, min_self]

theorem jsMathMax_const (v z : ℚ) :
    ∀ scores : List ℚ, scores ≠ [] → (∀ x ∈ scores, x = v) →
      jsMathMax scores z = max v z := by
  intro scores
  induction scores with
  | nil => intro h; cases h rfl
  | cons a tl ih =>
    intro _ hall
    have ha : a = v := hall a (List.mem_cons_self _ _)
    cases tl with
    | nil => simp [jsMathMax, ha]
    | cons b tl2 =>
      have h2 := ih (by simp) (fun x hx => hall x (List.mem_cons_of_mem _ hx))
      show max a (jsMathMax (b :: tl2) z) = max v z
      rw [h2, ha, ← max_assoc, max_self]

/-- C1 counterexample: a BM25 candidate set whose raw scores are all equal
(the single score 1/2) is normalized by the rerank endpoint to 1/2, not to
the claimed 1.0, because the minimum is clamped to `Math.min(..., 0)` and
the maximum to `Math.max(..., 1)` rather than being taken over the
candidate set alone. -/
theorem c1_equal_scores_counterexample :
    mapGet (rerankCombine [{ docId := "d1", bm25Score := 1/2 }] []) "d1"
        = some { bm25Score := 1/2, bm25Normalized := 1/2, bm25Rank := some 1,
                 vectorScore := 0, vectorNormalized := 0, vectorRank := none,
                 foundIn := "bm25" } ∧
      ¬ ((1 : ℚ)/2 = 1) := by
  refine ⟨?_, by norm_num⟩
  simp only [rerankCombine, insertVectorDocs, insertBM25Docs, mkBM25Entry, mapSet, mapGet,
    jsMathMin, jsMathMax, List.map_cons, List.map_nil, List.foldr, normalizeBM25]
  norm_num [min_def, max_def]

/-- C1 amended: the rerank endpoint normalizes each method's raw scores
with `minScore = Math.min(...scores, 0)` and `maxScore = Math.max(...scores, 1)`;
the output always lies in [0,1], and when all raw scores of the method's
candidate set equal `v` the normalized score is 1 when `v ≥ 1`, `v` when
`0 ≤ v < 1`, and 0 when `v < 0` (so it equals 1.0 only when `v ≥ 1`, not
for every equal-score candidate set). -/
theorem c1_normalizer_amended (scores : List ℚ) (s : ℚ) (hs : s ∈ scores) :
    (0 ≤ normalizeBM25 s (jsMathMin scores 0) (jsMathMax scores 1) ∧
      normalizeBM25 s (jsMathMin scores 0) (jsMathMax scores 1) ≤ 1) ∧
    ∀ v : ℚ, (∀ x ∈ scores, x = v) →
      normalizeBM25 s (jsMathMin scores 0) (jsMathMax scores 1)
        = if 1 ≤ v then 1 else if 0 ≤ v then v else 0 := by
  have hmn0 : jsMathMin scores 0 ≤ 0 := jsMathMin_le_extra scores 0
  have hmx1 : (1 : ℚ) ≤ jsMathMax scores 1 := extra_le_jsMathMax scores 1
  have hmns : jsMathMin scores 0 ≤ s := jsMathMin_le_mem scores 0 s hs
  have hsmx : s ≤ jsMathMax scores 1 := mem_le_jsMathMax scores 1 s hs
  have hne : ¬ (jsMathMax scores 1 = jsMathMin scores 0) := by
    intro h; linarith
  have hpos : 0 < jsMathMax scores 1 - jsMathMin scores 0 := by linarith
  constructor
  · constructor
    · unfold normalizeBM25
      rw [if_neg hne]
      exact div_nonneg (by linarith) (le_of_lt hpos)
    · unfold normalizeBM25
      rw [if_neg hne]
      rw [div_le_one hpos]
      linarith
  · intro v hall
    have hsv : s = v := hall s hs
    have hnil : scores ≠ [] := by
      intro h; rw [h] at hs; cases hs
    have hminv : jsMathMin scores 0 = min v 0 := jsMathMin_const v 0 scores hnil hall
    have hmaxv : jsMathMax scores 1 = max v 1 := jsMathMax_const v 1 scores hnil hall
    unfold normalizeBM25
    rw [if_neg hne, hminv, hmaxv, hsv]
    by_cases h1 : 1 ≤ v
    · have hv0 : (0 : ℚ) ≤ v := le_trans zero_le_one h1
      rw [min_eq_right hv0, max_eq_left h1, if_pos h1]
      rw [sub_zero]
      exact div_self (by linarith)
    · rw [if_neg h1]
      by_cases h0 : (0 : ℚ) ≤ v
      · rw [min_eq_right h0, max_eq_right (le_of_not_le h1), if_pos h0]
        simp
      · have hvlt : v ≤ 0 := le_of_not_le h0
        rw [min_eq_left hvlt, max_eq_right (by linarith : v ≤ 1), if_neg h0]
        rw [sub_self]
        exact zero_div _

/-- C1 witness: the amended theorem applied to the singleton candidate set
with raw score 1/2. -/
theorem c1_normalizer_amended_witness :
    ((0 ≤ normalizeBM25 (1/2) (jsMathMin [(1:ℚ)/2] 0) (jsMathMax [(1:ℚ)/2] 1) ∧
       normalizeBM25 (1/2) (jsMathMin [(1:ℚ)/2] 0) (jsMathMax [(1:ℚ)/2] 1) ≤ 1) ∧
     ∀ v : ℚ, (∀ x ∈ [(1:ℚ)/2], x = v) →
       normalizeBM25 (1/2) (jsMathMin [(1:ℚ)/2] 0) (jsMathMax [(1:ℚ)/2] 1)
         = if 1 ≤ v then 1 else if 0 ≤ v then v else 0) :=
  c1_normalizer_amended [(1:ℚ)/2] (1/2) (by simp)

theorem retryGo_allfail (maxR : Nat) (msgs : Nat → String) :
    ∀ (f attempt : Nat) (lastErr : String), attempt + f = maxR →
      retryGo (fun a => .err (msgs a)) maxR (f + 1) attempt lastErr
        = (failureResult (msgs maxR), (List.range f).map (fun i => 1000 * (attempt + i))) := by
  intro f
  induction f with
  | zero =>
    intro attempt lastErr h
    have ha : attempt = maxR := by omega
    subst ha
    simp [retryGo]
  | succ f ih =>
    intro attempt lastErr h
    have hlt : attempt < maxR := by omega
    have hrec := ih (attempt + 1) (msgs attempt) (by omega)
    have hlist : (1000 * attempt :: (List.range f).map (fun i => 1000 * (attempt + 1 + i)))
        = (List.range (f + 1)).map (fun i => 1000 * (attempt + i)) := by
      rw [List.range_succ_eq_map, List.map_cons, List.map_map]
      simp only [Nat.add_zero]
      congr 1
      apply List.map_congr_left
      intro x _
      simp only [Function.comp_apply]
      omega
    have hstep : retryGo (fun a => .err (msgs a)) maxR (f + 1 + 1) attempt lastErr
        = ((retryGo (fun a => .err (msgs a)) maxR (f + 1) (attempt + 1) (msgs attempt)).1,
           1000 * attempt :: (retryGo (fun a => .err (msgs a)) maxR (f + 1) (attempt + 1) (msgs attempt)).2) := by
      simp only [retryGo, hlt, if_true]
    rw [hstep, hrec, ← hlist]

/-- C3 counterexample: with a configured retry limit of 4 and every attempt
failing, the awaited backoff delays of `generateTestcaseEmbedding` are
1000ms, 2000ms, 3000ms (`1000 * attempt`, linear), so the third delay is
3000ms and not double the second (4000ms) as the claimed
doubling-per-attempt schedule requires. -/
theorem c3_backoff_counterexample :
    (generateTestcaseEmbedding (fun _ => .err "ETIMEDOUT") 4).2 = [1000, 2000, 3000] ∧
      ¬ ((3000 : Nat) = 2 * 2000) := by
  exact ⟨rfl, by decide⟩

/-- C3 amended: in the testcase batch script a transiently failing item is
retried up to the configured limit (default 3 attempts) with a linearly
growing backoff of `1000 * attempt` ms between attempts (1s, 2s, ... — not
doubling; the doubling schedule capped at 10s, `rateLimitDelay`, applies
only to HTTP 429 errors in the user-stories script); after the retries are
exhausted the item is returned as a failed result with the last error
message, and the batch map still yields one result per item, so one item's
failure never aborts the batch. -/
theorem c3_retry_amended (m : Nat) (hm : 1 ≤ m) (msgs : Nat → String) :
    (generateTestcaseEmbedding (fun a => AttemptOutcome.err (msgs a)) m).1
        = failureResult (msgs m) ∧
      (generateTestcaseEmbedding (fun a => AttemptOutcome.err (msgs a)) m).2
        = (List.range (m - 1)).map (fun i => 1000 * (1 + i)) ∧
      (∀ a, rateLimitDelay a ≤ 10000) ∧
      ∀ (items : List (Nat → AttemptOutcome)) (mr : Nat),
        (processBatch items mr).length = items.length := by
  obtain ⟨f, rfl⟩ : ∃ f, m = f + 1 := ⟨m - 1, by omega⟩
  have h := retryGo_allfail (f + 1) msgs f 1 "" (by omega)
  refine ⟨?_, ?_, ?_, ?_⟩
  · unfold generateTestcaseEmbedding
    rw [h]
  · unfold generateTestcaseEmbedding
    rw [h]
    simp
  · intro a
    exact min_le_right _ _
  · intro items mr
    simp [processBatch]

/-- C3 witness: the amended theorem at the default retry limit 3 with a
constant error trace. -/
theorem c3_retry_amended_witness :
    ((generateTestcaseEmbedding (fun _ => AttemptOutcome.err "boom") 3).1
        = failureResult "boom" ∧
      (generateTestcaseEmbedding (fun _ => AttemptOutcome.err "boom") 3).2
        = (List.range (3 - 1)).map (fun i => 1000 * (1 + i)) ∧
      (∀ a, rateLimitDelay a ≤ 10000) ∧
      ∀ (items : List (Nat → AttemptOutcome)) (mr : Nat),
        (processBatch items mr).length = items.length) :=
  c3_retry_amended 3 (by decide) (fun _ => "boom")

/-- C7: RRF fusion is monotonic: if candidate A outranks candidate B in
every method that ranks B (A ranked strictly above, with the ranks 1-based
as the rerank endpoint assigns them), then A's fused RRF score is at least
B's. -/
theorem c7_rrf_monotonic (aB aV bB bV : Option Nat)
    (hB : ∀ rb, bB = some rb → ∃ ra, aB = some ra ∧ 1 ≤ ra ∧ ra < rb)
    (hV : ∀ rb, bV = some rb → ∃ ra, aV = some ra ∧ 1 ≤ ra ∧ ra < rb) :
    rrfFusedScore bB bV ≤ rrfFusedScore aB aV := by
  have key : ∀ (a b : Option Nat),
      (∀ rb, b = some rb → ∃ ra, a = some ra ∧ 1 ≤ ra ∧ ra < rb) →
      rrfTermOf b ≤ rrfTermOf a := by
    intro a b hab
    cases b with
    | none =>
      have ha : 0 ≤ rrfTermOf a := by
        cases a with
        | none => simp [rrfTermOf]
        | some r =>
          cases r with
          | zero => simp [rrfTermOf]
          | succ n =>
            simp only [rrfTermOf]
            positivity
      simpa [rrfTermOf] using ha
    | some rb =>
      obtain ⟨ra, hra, h1, hlt⟩ := hab rb rfl
      subst hra
      obtain ⟨n, rfl⟩ : ∃ n, ra = n + 1 := ⟨ra - 1, by omega⟩
      obtain ⟨k, rfl⟩ : ∃ k, rb = k + 1 := ⟨rb - 1, by omega⟩
      simp only [rrfTermOf]
      apply one_div_le_one_div_of_le
      · positivity
      · have hnk : (n : ℚ) ≤ k := by
          have : n ≤ k := by omega
          exact_mod_cast this
        push_cast
        linarith
  exact add_le_add (key aB bB hB) (key aV bV hV)

/-- C7 witness: ranks (1,1) against (2,2). -/
theorem c7_rrf_monotonic_witness :
    rrfFusedScore (some 2) (some 2) ≤ rrfFusedScore (some 1) (some 1) :=
  c7_rrf_monotonic (some 1) (some 1) (some 2) (some 2)
    (by intro rb h; cases h; exact ⟨1, rfl, by decide, by decide⟩)
    (by intro rb h; cases h; exact ⟨1, rfl, by decide, by decide⟩)

theorem dedupeLoop_partition (θ : ℚ) :
    ∀ (l : List SearchResult) (seen : List (String × SearchResult)),
      List.Sublist (dedupeLoop θ l seen).1 l ∧
        List.Sublist ((dedupeLoop θ l seen).2.map (fun e => e.result)) l ∧
        List.Perm ((dedupeLoop θ l seen).1 ++ (dedupeLoop θ l seen).2.map (fun e => e.result)) l := by
  intro l
  induction l with
  | nil =>
    intro seen
    simp [dedupeLoop]
  | cons r rest ih =>
    intro seen
    cases hf : findDup θ (effTitle r) seen with
    | some q =>
      obtain ⟨qid, qsim⟩ := q
      have hstep : dedupeLoop θ (r :: rest) seen
          = ((dedupeLoop θ rest seen).1,
             { result := r, duplicateOf := qid, similarity := qsim } :: (dedupeLoop θ rest seen).2) := by
        simp [dedupeLoop, hf]
      obtain ⟨h1, h2, h3⟩ := ih seen
      rw [hstep]
      refine ⟨h1.cons r, ?_, ?_⟩
      · simpa using h2.cons₂ r
      · simp only [List.map_cons]
        exact (List.perm_middle).trans (h3.cons r)
    | none =>
      have hstep : dedupeLoop θ (r :: rest) seen
          = (r :: (dedupeLoop θ rest (mapSet seen (effTitle r) r)).1,
             (dedupeLoop θ rest (mapSet seen (effTitle r) r)).2) := by
        simp [dedupeLoop, hf]
      obtain ⟨h1, h2, h3⟩ := ih (mapSet seen (effTitle r) r)
      rw [hstep]
      refine ⟨h1.cons₂ r, h2.cons r, ?_⟩
      simpa using h3.cons r

/-- C9: the deduplicator partitions its input: every input element lands in
exactly one of the primary `deduplicated` output and the `duplicates` list
(their concatenation is a permutation of the input and each preserves the
input's relative order as a sublist), so the deduplicated count plus the
duplicates-removed count equals the original count. -/
theorem c9_dedup_partition (θ : ℚ) (results : List SearchResult) :
    (deduplicateResults θ results).1.length + (deduplicateResults θ results).2.length
        = results.length ∧
      List.Sublist (deduplicateResults θ results).1 results ∧
      List.Sublist ((deduplicateResults θ results).2.map (fun e => e.result)) results ∧
      List.Perm ((deduplicateResults θ results).1
          ++ (deduplicateResults θ results).2.map (fun e => e.result)) results := by
  obtain ⟨h1, h2, h3⟩ := dedupeLoop_partition θ results []
  refine ⟨?_, h1, h2, h3⟩
  have := h3.length_eq
  simpa [List.length_append] using this

theorem wordsAux_ne_nil (cs : List Char) :
    ∀ acc : List Char, acc ≠ [] → wordsAux cs acc ≠ [] := by
  induction cs with
  | nil =>
    intro acc hacc
    match acc, hacc with
    | a :: tl, _ => simp [wordsAux]
  | cons c cs2 ih =>
    intro acc hacc
    match acc, hacc with
    | a :: tl, _ =>
      cases hws : jsIsWhitespace c with
      | true => simp [wordsAux, hws]
      | false =>
        have hrw : wordsAux (c :: cs2) (a :: tl) = wordsAux cs2 (c :: a :: tl) := by
          simp [wordsAux, hws]
        rw [hrw]
        exact ih (c :: a :: tl) (by simp)

theorem jsSplitWs_ne_nil (s : String) : jsSplitWs s ≠ [] := by
  unfold jsSplitWs
  cases hs : s.toList with
  | nil => simp
  | cons c cs =>
    cases hws : jsIsWhitespace c with
    | true =>
      simp [hws]
    | false =>
      have hrw : wordsAux (c :: cs) [] = wordsAux cs [c] := by
        simp [wordsAux, hws]
      have hne : wordsAux cs [c] ≠ [] := wordsAux_ne_nil cs [c] (by simp)
      simp only [hws, Bool.false_eq_true, if_false, List.nil_append]
      rw [hrw]
      intro hcontra
      rcases List.append_eq_nil.mp hcontra with ⟨h2, h3⟩
      exact hne h2

theorem tokenSet_ne_nil (s : String) : tokenSet s ≠ [] := by
  unfold tokenSet
  intro h
  exact jsSplitWs_ne_nil (jsToLower s) ((List.dedup_eq_nil _).mp h)

theorem calculateTextSimilarity_self (t : String) : calculateTextSimilarity t t = 1 := by
  show (((tokenSet t).filter (fun w => (tokenSet t).contains w)).length : ℚ)
      / ((((tokenSet t) ++ (tokenSet t)).dedup).length : ℚ) = 1
  have hfilter : (tokenSet t).filter (fun w => (tokenSet t).contains w) = tokenSet t :=
    List.filter_eq_self.mpr (fun a ha => by simpa using ha)
  have hnodup : (tokenSet t).dedup = tokenSet t := by
    unfold tokenSet
    exact (List.nodup_dedup _).dedup
  have hsub : ((tokenSet t) ++ (tokenSet t)).dedup.length = (tokenSet t).length := by
    have h1 : ((tokenSet t) ++ (tokenSet t)).toFinset = (tokenSet t).toFinset := by
      simp [List.toFinset_append]
    have h2 := List.card_toFinset ((tokenSet t) ++ (tokenSet t))
    have h3 := List.card_toFinset (tokenSet t)
    rw [h1, h3, hnodup] at h2
    omega
  rw [hfilter, hsub]
  have hlen : (tokenSet t).length ≠ 0 := by
    intro h
    exact tokenSet_ne_nil t (List.length_eq_zero.mp h)
  exact div_self (by exact_mod_cast hlen)

theorem findDup_isSome_of_hit (θ : ℚ) (t : String) :
    ∀ seen : List (String × SearchResult),
      (∃ p ∈ seen, θ ≤ calculateTextSimilarity t p.1) →
      ∃ q, findDup θ t seen = some q := by
  intro seen
  induction seen with
  | nil =>
    rintro ⟨p, hp, _⟩
    cases hp
  | cons hd tl ih =>
    rintro ⟨p, hp, hsim⟩
    obtain ⟨k0, v0⟩ := hd
    by_cases hcond : θ ≤ calculateTextSimilarity t k0
    · exact ⟨(v0.id, calculateTextSimilarity t k0), by simp [findDup, hcond]⟩
    · rcases List.mem_cons.mp hp with heq | hmem
      · exfalso
        apply hcond
        rw [heq] at hsim
        exact hsim
      · obtain ⟨q, hq⟩ := ih ⟨p, hmem, hsim⟩
        exact ⟨q, by simp [findDup, hcond, hq]⟩

theorem findDup_some_hit (θ : ℚ) (t : String) :
    ∀ (seen : List (String × SearchResult)) (q : String × ℚ),
      findDup θ t seen = some q →
      ∃ p ∈ seen, θ ≤ calculateTextSimilarity t p.1 := by
  intro seen
  induction seen with
  | nil =>
    intro q h
    simp [findDup] at h
  | cons hd tl ih =>
    intro q h
    obtain ⟨k0, v0⟩ := hd
    by_cases hcond : θ ≤ calculateTextSimilarity t k0
    · exact ⟨(k0, v0), List.mem_cons_self _ _, hcond⟩
    · simp only [findDup] at h
      rw [if_neg hcond] at h
      obtain ⟨p, hp, hsim⟩ := ih q h
      exact ⟨p, List.mem_cons_of_mem _ hp, hsim⟩

theorem self_mem_mapSet {α : Type} (m : List (String × α)) (k : String) (v : α) :
    (k, v) ∈ mapSet m k v := by
  induction m with
  | nil => simp [mapSet]
  | cons hd tl ih =>
    obtain ⟨k0, v0⟩ := hd
    by_cases h : k0 = k
    · simp [mapSet, h]
    · simp only [mapSet, if_neg h]
      exact List.mem_cons_of_mem _ ih

theorem mapSet_preserves_key {α : Type} (m : List (String × α)) (pk knew : String)
    (pv vnew : α) (h : (pk, pv) ∈ m) : ∃ v2, (pk, v2) ∈ mapSet m knew vnew := by
  induction m with
  | nil => cases h
  | cons hd tl ih =>
    obtain ⟨k1, v1⟩ := hd
    by_cases heq : k1 = knew
    · rcases List.mem_cons.mp h with h1 | h1
      · have hk : pk = knew := by
          have h2 := congrArg Prod.fst h1
          simp at h2
          rw [h2, heq]
        refine ⟨vnew, ?_⟩
        simp only [mapSet, if_pos heq]
        rw [hk]
        exact List.mem_cons_self _ _
      · refine ⟨pv, ?_⟩
        simp only [mapSet, if_pos heq]
        exact List.mem_cons_of_mem _ h1
    · rcases List.mem_cons.mp h with h1 | h1
      · refine ⟨pv, ?_⟩
        simp only [mapSet, if_neg heq]
        rw [h1]
        exact List.mem_cons_self _ _
      · obtain ⟨v2, hv2⟩ := ih h1
        refine ⟨v2, ?_⟩
        simp only [mapSet, if_neg heq]
        exact List.mem_cons_of_mem _ hv2

theorem dedupeLoop_drop_later (θ : ℚ) (t : String) :
    ∀ (mid : List SearchResult) (seen : List (String × SearchResult)),
      (∃ p ∈ seen, θ ≤ calculateTextSimilarity t p.1) →
      ∀ (post : List SearchResult) (rj : SearchResult), effTitle rj = t →
        (dedupeLoop θ (mid ++ rj :: post) seen).1 = (dedupeLoop θ (mid ++ post) seen).1 ∧
        (dedupeLoop θ (mid ++ rj :: post) seen).2.length
          = (dedupeLoop θ (mid ++ post) seen).2.length + 1 := by
  intro mid
  induction mid with
  | nil =>
    intro seen hhit post rj hrt
    obtain ⟨q, hq⟩ := findDup_isSome_of_hit θ t seen hhit
    obtain ⟨qid, qsim⟩ := q
    have hq2 : findDup θ (effTitle rj) seen = some (qid, qsim) := by
      rw [hrt]
      exact hq
    have hstep : dedupeLoop θ (rj :: post) seen
        = ((dedupeLoop θ post seen).1,
           { result := rj, duplicateOf := qid, similarity := qsim }
             :: (dedupeLoop θ post seen).2) := by
      simp [dedupeLoop, hq2]
    simp only [List.nil_append]
    rw [hstep]
    exact ⟨rfl, by simp⟩
  | cons r mid2 ih =>
    intro seen hhit post rj hrt
    simp only [List.cons_append]
    cases hf : findDup θ (effTitle r) seen with
    | some q =>
      obtain ⟨qid, qsim⟩ := q
      have hstep1 : dedupeLoop θ (r :: (mid2 ++ rj :: post)) seen
          = ((dedupeLoop θ (mid2 ++ rj :: post) seen).1,
             { result := r, duplicateOf := qid, similarity := qsim }
               :: (dedupeLoop θ (mid2 ++ rj :: post) seen).2) := by
        simp [dedupeLoop, hf]
      have hstep2 : dedupeLoop θ (r :: (mid2 ++ post)) seen
          = ((dedupeLoop θ (mid2 ++ post) seen).1,
             { result := r, duplicateOf := qid, similarity := qsim }
               :: (dedupeLoop θ (mid2 ++ post) seen).2) := by
        simp [dedupeLoop, hf]
      obtain ⟨ha, hb⟩ := ih seen hhit post rj hrt
      rw [hstep1, hstep2]
      exact ⟨ha, by simp only [List.length_cons]; omega⟩
    | none =>
      have hhit2 : ∃ p ∈ mapSet seen (effTitle r) r, θ ≤ calculateTextSimilarity t p.1 := by
        obtain ⟨p, hp, hsim⟩ := hhit
        obtain ⟨pk, pv⟩ := p
        obtain ⟨v2, hv2⟩ := mapSet_preserves_key seen pk (effTitle r) pv r hp
        exact ⟨(pk, v2), hv2, hsim⟩
      have hstep1 : dedupeLoop θ (r :: (mid2 ++ rj :: post)) seen
          = (r :: (dedupeLoop θ (mid2 ++ rj :: post) (mapSet seen (effTitle r) r)).1,
             (dedupeLoop θ (mid2 ++ rj :: post) (mapSet seen (effTitle r) r)).2) := by
        simp [dedupeLoop, hf]
      have hstep2 : dedupeLoop θ (r :: (mid2 ++ post)) seen
          = (r :: (dedupeLoop θ (mid2 ++ post) (mapSet seen (effTitle r) r)).1,
             (dedupeLoop θ (mid2 ++ post) (mapSet seen (effTitle r) r)).2) := by
        simp [dedupeLoop, hf]
      obtain ⟨ha, hb⟩ := ih (mapSet seen (effTitle r) r) hhit2 post rj hrt
      rw [hstep1, hstep2]
      exact ⟨by rw [ha], hb⟩

theorem dedupeLoop_pre_aux (θ : ℚ) (hθ : θ ≤ 1) (ri rj : SearchResult)
    (ht : effTitle ri = effTitle rj) (mid post : List SearchResult) :
    ∀ (pre : List SearchResult) (seen : List (String × SearchResult)),
      (dedupeLoop θ (pre ++ ri :: mid ++ rj :: post) seen).1
          = (dedupeLoop θ (pre ++ ri :: mid ++ post) seen).1 ∧
        (dedupeLoop θ (pre ++ ri :: mid ++ rj :: post) seen).2.length
          = (dedupeLoop θ (pre ++ ri :: mid ++ post) seen).2.length + 1 := by
  intro pre
  induction pre with
  | nil =>
    intro seen
    simp only [List.nil_append, List.cons_append]
    cases hf : findDup θ (effTitle ri) seen with
    | some q =>
      obtain ⟨qid, qsim⟩ := q
      have hhit0 := findDup_some_hit θ (effTitle ri) seen (qid, qsim) hf
      have hhit : ∃ p ∈ seen, θ ≤ calculateTextSimilarity (effTitle rj) p.1 := by
        obtain ⟨p, hp, hs⟩ := hhit0
        exact ⟨p, hp, by rwa [← ht]⟩
      obtain ⟨ha, hb⟩ := dedupeLoop_drop_later θ (effTitle rj) mid seen hhit post rj rfl
      have hstep1 : dedupeLoop θ (ri :: (mid ++ rj :: post)) seen
          = ((dedupeLoop θ (mid ++ rj :: post) seen).1,
             { result := ri, duplicateOf := qid, similarity := qsim }
               :: (dedupeLoop θ (mid ++ rj :: post) seen).2) := by
        simp [dedupeLoop, hf]
      have hstep2 : dedupeLoop θ (ri :: (mid ++ post)) seen
          = ((dedupeLoop θ (mid ++ post) seen).1,
             { result := ri, duplicateOf := qid, similarity := qsim }
               :: (dedupeLoop θ (mid ++ post) seen).2) := by
        simp [dedupeLoop, hf]
      rw [hstep1, hstep2]
      exact ⟨ha, by simp only [List.length_cons]; omega⟩
    | none =>
      have hhit : ∃ p ∈ mapSet seen (effTitle ri) ri,
          θ ≤ calculateTextSimilarity (effTitle rj) p.1 := by
        refine ⟨(effTitle ri, ri), self_mem_mapSet _ _ _, ?_⟩
        show θ ≤ calculateTextSimilarity (effTitle rj) (effTitle ri)
        rw [ht, calculateTextSimilarity_self]
        exact hθ
      obtain ⟨ha, hb⟩ := dedupeLoop_drop_later θ (effTitle rj) mid
        (mapSet seen (effTitle ri) ri) hhit post rj rfl
      have hstep1 : dedupeLoop θ (ri :: (mid ++ rj :: post)) seen
          = (ri :: (dedupeLoop θ (mid ++ rj :: post) (mapSet seen (effTitle ri) ri)).1,
             (dedupeLoop θ (mid ++ rj :: post) (mapSet seen (effTitle ri) ri)).2) := by
        simp [dedupeLoop, hf]
      have hstep2 : dedupeLoop θ (ri :: (mid ++ post)) seen
          = (ri :: (dedupeLoop θ (mid ++ post) (mapSet seen (effTitle ri) ri)).1,
             (dedupeLoop θ (mid ++ post) (mapSet seen (effTitle ri) ri)).2) := by
        simp [dedupeLoop, hf]
      rw [hstep1, hstep2]
      exact ⟨by rw [ha], hb⟩
  | cons p0 pre2 ih =>
    intro seen
    simp only [List.cons_append]
    cases hf : findDup θ (effTitle p0) seen with
    | some q =>
      obtain ⟨qid, qsim⟩ := q
      have hstep1 : dedupeLoop θ (p0 :: (pre2 ++ ri :: mid ++ rj :: post)) seen
          = ((dedupeLoop θ (pre2 ++ ri :: mid ++ rj :: post) seen).1,
             { result := p0, duplicateOf := qid, similarity := qsim }
               :: (dedupeLoop θ (pre2 ++ ri :: mid ++ rj :: post) seen).2) := by
        simp [dedupeLoop, hf]
      have hstep2 : dedupeLoop θ (p0 :: (pre2 ++ ri :: mid ++ post)) seen
          = ((dedupeLoop θ (pre2 ++ ri :: mid ++ post) seen).1,
             { result := p0, duplicateOf := qid, similarity := qsim }
               :: (dedupeLoop θ (pre2 ++ ri :: mid ++ post) seen).2) := by
        simp [dedupeLoop, hf]
      obtain ⟨ha, hb⟩ := ih seen
      rw [hstep1, hstep2]
      exact ⟨ha, by simp only [List.length_cons]; omega⟩
    | none =>
      have hstep1 : dedupeLoop θ (p0 :: (pre2 ++ ri :: mid ++ rj :: post)) seen
          = (p0 :: (dedupeLoop θ (pre2 ++ ri :: mid ++ rj :: post) (mapSet seen (effTitle p0) p0)).1,
             (dedupeLoop θ (pre2 ++ ri :: mid ++ rj :: post) (mapSet seen (effTitle p0) p0)).2) := by
        simp [dedupeLoop, hf]
      have hstep2 : dedupeLoop θ (p0 :: (pre2 ++ ri :: mid ++ post)) seen
          = (p0 :: (dedupeLoop θ (pre2 ++ ri :: mid ++ post) (mapSet seen (effTitle p0) p0)).1,
             (dedupeLoop θ (pre2 ++ ri :: mid ++ post) (mapSet seen (effTitle p0) p0)).2) := by
        simp [dedupeLoop, hf]
      obtain ⟨ha, hb⟩ := ih (mapSet seen (effTitle p0) p0)
      rw [hstep1, hstep2]
      exact ⟨by rw [ha], hb⟩

/-- C8 amended: when the input list contains two entries with identical
case-folded titles and the threshold is at most 1, the later entry is
always classified as a duplicate and dropped from the primary output
(never the reverse): the primary output equals the primary output of the
input with the later entry removed, and the duplicates list gains exactly
one entry.  Hence the primary output contains at most one of the two — it
contains exactly one only when the earlier entry is itself retained, and
the later entry's `duplicateOf` points at the first sufficiently similar
seen entry, which need not be the identical-titled one. -/
theorem c8_later_duplicate_amended (θ : ℚ) (hθ : θ ≤ 1)
    (pre mid post : List SearchResult) (ri rj : SearchResult)
    (ht : effTitle ri = effTitle rj) :
    (deduplicateResults θ (pre ++ ri :: mid ++ rj :: post)).1
        = (deduplicateResults θ (pre ++ ri :: mid ++ post)).1 ∧
      (deduplicateResults θ (pre ++ ri :: mid ++ rj :: post)).2.length
        = (deduplicateResults θ (pre ++ ri :: mid ++ post)).2.length + 1 :=
  dedupeLoop_pre_aux θ hθ ri rj ht mid post pre []

/-- C8 amended witness: two identically titled entries and threshold 1. -/
theorem c8_later_duplicate_amended_witness :
    (deduplicateResults 1 [⟨"1", some "x"⟩, ⟨"2", some "x"⟩]).1
        = (deduplicateResults 1 [⟨"1", some "x"⟩]).1 ∧
      (deduplicateResults 1 [⟨"1", some "x"⟩, ⟨"2", some "x"⟩]).2.length
        = (deduplicateResults 1 [⟨"1", some "x"⟩]).2.length + 1 :=
  c8_later_duplicate_amended 1 (by norm_num) [] [] [] ⟨"1", some "x"⟩ ⟨"2", some "x"⟩ rfl

theorem calcSim_eval (t1 t2 : String) (a b : Nat)
    (ha : ((tokenSet t1).filter (fun w => (tokenSet t2).contains w)).length = a)
    (hb : ((tokenSet t1 ++ tokenSet t2).dedup).length = b) :
    calculateTextSimilarity t1 t2 = (a : ℚ) / (b : ℚ) := by
  show (((tokenSet t1).filter (fun w => (tokenSet t2).contains w)).length : ℚ)
      / (((tokenSet t1 ++ tokenSet t2).dedup).length : ℚ) = (a : ℚ) / (b : ℚ)
  rw [ha, hb]

/-- C8 counterexample: with threshold 1/2 (at most 1) and the input
`[{id 1, title "a b"}, {id 2, title "a b c d"}, {id 3, title "a b c d"}]`,
the two identical-titled entries (ids 2 and 3) are BOTH dropped as
duplicates of entry 1 (Jaccard("a b c d", "a b") = 1/2 reaches the
threshold), so the primary output `[entry 1]` contains neither of them —
not "exactly one of the two" — and the later twin is recorded as
duplicate-of entry 1, not of its identical-titled predecessor. -/
theorem c8_identical_titles_counterexample :
    effTitle { id := "2", title := some "a b c d" }
        = effTitle { id := "3", title := some "a b c d" } ∧
      (1 : ℚ)/2 ≤ 1 ∧
      (deduplicateResults (1/2) [{ id := "1", title := some "a b" },
          { id := "2", title := some "a b c d" },
          { id := "3", title := some "a b c d" }]).1
        = [{ id := "1", title := some "a b" }] ∧
      ((deduplicateResults (1/2) [{ id := "1", title := some "a b" },
          { id := "2", title := some "a b c d" },
          { id := "3", title := some "a b c d" }]).2.map
            (fun e => (e.result, e.duplicateOf)))
        = [({ id := "2", title := some "a b c d" }, "1"),
           ({ id := "3", title := some "a b c d" }, "1")] ∧
      ¬ (({ id := "2", title := some "a b c d" }
            ∈ (deduplicateResults (1/2) [{ id := "1", title := some "a b" },
                { id := "2", title := some "a b c d" },
                { id := "3", title := some "a b c d" }]).1 ∧
          { id := "3", title := some "a b c d" }
            ∉ (deduplicateResults (1/2) [{ id := "1", title := some "a b" },
                { id := "2", title := some "a b c d" },
                { id := "3", title := some "a b c d" }]).1) ∨
         ({ id := "3", title := some "a b c d" }
            ∈ (deduplicateResults (1/2) [{ id := "1", title := some "a b" },
                { id := "2", title := some "a b c d" },
                { id := "3", title := some "a b c d" }]).1 ∧
          { id := "2", title := some "a b c d" }
            ∉ (deduplicateResults (1/2) [{ id := "1", title := some "a b" },
                { id := "2", title := some "a b c d" },
                { id := "3", title := some "a b c d" }]).1)) := by
  have hsim : calculateTextSimilarity "a b c d" "a b" = (1 : ℚ) / 2 := by
    have h := calcSim_eval "a b c d" "a b" 2 4 (by decide) (by decide)
    rw [h]
    norm_num
  have ht1 : effTitle { id := "1", title := some "a b" } = "a b" := by decide
  have ht2 : effTitle { id := "2", title := some "a b c d" } = "a b c d" := by decide
  have ht3 : effTitle { id := "3", title := some "a b c d" } = "a b c d" := by decide
  have hloop : deduplicateResults ((1:ℚ)/2) [{ id := "1", title := some "a b" },
      { id := "2", title := some "a b c d" }, { id := "3", title := some "a b c d" }]
      = ([{ id := "1", title := some "a b" }],
         [{ result := { id := "2", title := some "a b c d" }, duplicateOf := "1",
            similarity := 1/2 },
          { result := { id := "3", title := some "a b c d" }, duplicateOf := "1",
            similarity := 1/2 }]) := by
    norm_num [deduplicateResults, dedupeLoop, findDup, mapSet, ht1, ht2, ht3, hsim]
  refine ⟨by decide, by norm_num, ?_, ?_, ?_⟩
  · rw [hloop]
  · rw [hloop]
    rfl
  · rw [hloop]
    decide

theorem rankOf_eq_none (ids : List String) (id : String) :
    rankOf ids id = none ↔ id ∉ ids := by
  induction ids with
  | nil => simp [rankOf]
  | cons k rest ih =>
    by_cases h : k = id
    · simp [rankOf, h]
    · simp [rankOf, h, ih, Ne.symm h]

theorem rankOf_pos : ∀ (ids : List String) (id : String) (r : Nat),
    rankOf ids id = some r → 1 ≤ r := by
  intro ids
  induction ids with
  | nil =>
    intro id r h
    simp [rankOf] at h
  | cons k rest ih =>
    intro id r h
    by_cases hk : k = id
    · simp [rankOf, hk] at h
      omega
    · simp only [rankOf, if_neg hk, Option.map_eq_some'] at h
      obtain ⟨r2, hr2, heq⟩ := h
      have heq2 : r2 + 1 = r := heq
      omega

theorem rrfTermOf_rankOf (ids : List String) (id : String) :
    rrfTermOf (rankOf ids id) = claimedRRFContribution ids id := by
  unfold claimedRRFContribution
  cases h : rankOf ids id with
  | none => simp [rrfTermOf]
  | some r =>
    have hr : 1 ≤ r := rankOf_pos ids id r h
    obtain ⟨n, rfl⟩ : ∃ n, r = n + 1 := ⟨r - 1, by omega⟩
    simp [rrfTermOf]

theorem mergeVectorDoc_get_ne (d : VectorDoc) (index : Nat) (mn mx : ℚ)
    (m : List (String × RerankEntry)) (id : String) (h : d.docId ≠ id) :
    mapGet (mergeVectorDoc d index mn mx m) id = mapGet m id := by
  unfold mergeVectorDoc
  cases mapGet m d.docId with
  | some existing => simp only; exact mapGet_mapSet_ne m d.docId id _ h
  | none => simp only; exact mapGet_mapSet_ne m d.docId id _ h

theorem insertBM25Docs_get_notmem (mn mx : ℚ) :
    ∀ (ds : List BM25Doc) (index : Nat) (m : List (String × RerankEntry)) (id : String),
      id ∉ ds.map (fun d => d.docId) →
      mapGet (insertBM25Docs mn mx ds index m) id = mapGet m id := by
  intro ds
  induction ds with
  | nil =>
    intro index m id _
    rfl
  | cons d ds2 ih =>
    intro index m id hid
    have h1 : d.docId ≠ id := by
      intro h
      exact hid (by simp [h])
    have h2 : id ∉ ds2.map (fun d => d.docId) := by
      intro h
      exact hid (by simp [h])
    show mapGet (insertBM25Docs mn mx ds2 (index + 1)
        (mapSet m d.docId (mkBM25Entry d index mn mx))) id = mapGet m id
    rw [ih (index + 1) _ id h2]
    exact mapGet_mapSet_ne m d.docId id _ h1

theorem insertBM25Docs_get_rank (mn mx : ℚ) :
    ∀ (ds : List BM25Doc) (index : Nat) (m : List (String × RerankEntry)) (id : String) (r : Nat),
      (ds.map (fun d => d.docId)).Nodup →
      rankOf (ds.map (fun d => d.docId)) id = some r →
      ∃ e, mapGet (insertBM25Docs mn mx ds index m) id = some e ∧
        e.bm25Rank = some (index + r) ∧ e.vectorRank = none := by
  intro ds
  induction ds with
  | nil =>
    intro index m id r _ h
    simp [rankOf] at h
  | cons d ds2 ih =>
    intro index m id r hnd h
    simp only [List.map_cons, List.nodup_cons] at hnd
    obtain ⟨hd1, hd2⟩ := hnd
    by_cases hk : d.docId = id
    · have hr : r = 1 := by
        simp [rankOf, hk] at h
        omega
      subst hr
      have hid2 : id ∉ ds2.map (fun d => d.docId) := by
        rw [← hk]
        exact hd1
      refine ⟨mkBM25Entry d index mn mx, ?_, ?_, rfl⟩
      · show mapGet (insertBM25Docs mn mx ds2 (index + 1)
            (mapSet m d.docId (mkBM25Entry d index mn mx))) id = _
        rw [insertBM25Docs_get_notmem mn mx ds2 (index + 1) _ id hid2, hk]
        exact mapGet_mapSet_self _ _ _
      · rfl
    · simp only [List.map_cons, rankOf, if_neg hk, Option.map_eq_some'] at h
      obtain ⟨r2, hr2, heq⟩ := h
      have heq2 : r2 + 1 = r := heq
      subst heq2
      obtain ⟨e, he, hb, hv⟩ := ih (index + 1)
        (mapSet m d.docId (mkBM25Entry d index mn mx)) id r2 hd2 hr2
      refine ⟨e, he, ?_, hv⟩
      rw [hb]
      congr 1
      omega

theorem insertVectorDocs_get_notmem (mn mx : ℚ) :
    ∀ (ds : List VectorDoc) (index : Nat) (m : List (String × RerankEntry)) (id : String),
      id ∉ ds.map (fun d => d.docId) →
      mapGet (insertVectorDocs mn mx ds index m) id = mapGet m id := by
  intro ds
  induction ds with
  | nil =>
    intro index m id _
    rfl
  | cons d ds2 ih =>
    intro index m id hid
    have h1 : d.docId ≠ id := by
      intro h
      exact hid (by simp [h])
    have h2 : id ∉ ds2.map (fun d => d.docId) := by
      intro h
      exact hid (by simp [h])
    show mapGet (insertVectorDocs mn mx ds2 (index + 1)
        (mergeVectorDoc d index mn mx m)) id = mapGet m id
    rw [ih (index + 1) _ id h2]
    exact mergeVectorDoc_get_ne d index mn mx m id h1

theorem insertVectorDocs_get_rank (mn mx : ℚ) :
    ∀ (ds : List VectorDoc) (index : Nat) (m : List (String × RerankEntry)) (id : String) (r : Nat),
      (ds.map (fun d => d.docId)).Nodup →
      rankOf (ds.map (fun d => d.docId)) id = some r →
      ∃ e, mapGet (insertVectorDocs mn mx ds index m) id = some e ∧
        e.vectorRank = some (index + r) ∧
        e.bm25Rank = (mapGet m id).bind (fun ex => ex.bm25Rank) := by
  intro ds
  induction ds with
  | nil =>
    intro index m id r _ h
    simp [rankOf] at h
  | cons d ds2 ih =>
    intro index m id r hnd h
    simp only [List.map_cons, List.nodup_cons] at hnd
    obtain ⟨hd1, hd2⟩ := hnd
    by_cases hk : d.docId = id
    · have hr : r = 1 := by
        simp [rankOf, hk] at h
        omega
      subst hr
      have hid2 : id ∉ ds2.map (fun d => d.docId) := by
        rw [← hk]
        exact hd1
      have hpass : mapGet (insertVectorDocs mn mx (d :: ds2) index m) id
          = mapGet (mergeVectorDoc d index mn mx m) id := by
        show mapGet (insertVectorDocs mn mx ds2 (index + 1)
            (mergeVectorDoc d index mn mx m)) id = _
        exact insertVectorDocs_get_notmem mn mx ds2 (index + 1) _ id hid2
      cases hm : mapGet m d.docId with
      | some existing =>
        refine ⟨{ existing with vectorScore := d.vectorScore, vectorNormalized := normalizeVector d.vectorScore mn mx, vectorRank := some (index + 1), foundIn := "both" }, ?_, rfl, ?_⟩
        · rw [hpass]
          unfold mergeVectorDoc
          rw [hm]
          simp only
          rw [hk]
          exact mapGet_mapSet_self _ _ _
        · rw [← hk, hm]
          rfl
      | none =>
        refine ⟨{ bm25Score := 0, bm25Normalized := 0, bm25Rank := none, vectorScore := d.vectorScore, vectorNormalized := normalizeVector d.vectorScore mn mx, vectorRank := some (index + 1), foundIn := "vector" }, ?_, rfl, ?_⟩
        · rw [hpass]
          unfold mergeVectorDoc
          rw [hm]
          simp only
          rw [hk]
          exact mapGet_mapSet_self _ _ _
        · rw [← hk, hm]
          rfl
    · simp only [List.map_cons, rankOf, if_neg hk, Option.map_eq_some'] at h
      obtain ⟨r2, hr2, heq⟩ := h
      have heq2 : r2 + 1 = r := heq
      subst heq2
      obtain ⟨e, he, hvr, hbr⟩ := ih (index + 1)
        (mergeVectorDoc d index mn mx m) id r2 hd2 hr2
      refine ⟨e, he, ?_, ?_⟩
      · rw [hvr]
        congr 1
        omega
      · rw [hbr, mergeVectorDoc_get_ne d index mn mx m id hk]

theorem mapSet_keys_subset {α : Type} :
    ∀ (m : List (String × α)) (k : String) (v : α),
      ((mapSet m k v).map Prod.fst) ⊆ k :: m.map Prod.fst := by
  intro m
  induction m with
  | nil =>
    intro k v
    simp [mapSet]
  | cons hd tl ih =>
    intro k v
    obtain ⟨k0, v0⟩ := hd
    by_cases h : k0 = k
    · simp only [mapSet, if_pos h, List.map_cons]
      intro x hx
      rcases List.mem_cons.mp hx with h1 | h1
      · simp [h1]
      · simp [h1]
    · simp only [mapSet, if_neg h, List.map_cons]
      intro x hx
      rcases List.mem_cons.mp hx with h1 | h1
      · simp [h1]
      · rcases List.mem_cons.mp (ih k v h1) with h2 | h2
        · simp [h2]
        · simp [h2]

theorem mapSet_keys_nodup {α : Type} :
    ∀ (m : List (String × α)) (k : String) (v : α),
      (m.map Prod.fst).Nodup → ((mapSet m k v).map Prod.fst).Nodup := by
  intro m
  induction m with
  | nil =>
    intro k v _
    simp [mapSet]
  | cons hd tl ih =>
    intro k v hnd
    obtain ⟨k0, v0⟩ := hd
    simp only [List.map_cons, List.nodup_cons] at hnd
    obtain ⟨h1, h2⟩ := hnd
    by_cases h : k0 = k
    · simp only [mapSet, if_pos h, List.map_cons, List.nodup_cons]
      exact ⟨by rw [← h]; exact h1, h2⟩
    · simp only [mapSet, if_neg h, List.map_cons, List.nodup_cons]
      refine ⟨?_, ih k v h2⟩
      intro hcontra
      rcases List.mem_cons.mp (mapSet_keys_subset tl k v hcontra) with hc | hc
      · exact h hc
      · exact h1 hc

theorem mem_iff_mapGet {α : Type} :
    ∀ (m : List (String × α)), (m.map Prod.fst).Nodup →
      ∀ (k : String) (v : α), ((k, v) ∈ m ↔ mapGet m k = some v) := by
  intro m
  induction m with
  | nil =>
    intro _ k v
    simp [mapGet]
  | cons hd tl ih =>
    intro hnd k v
    obtain ⟨k0, v0⟩ := hd
    simp only [List.map_cons, List.nodup_cons] at hnd
    obtain ⟨h1, h2⟩ := hnd
    by_cases h : k0 = k
    · subst h
      constructor
      · intro hmem
        rcases List.mem_cons.mp hmem with he | he
        · have hv : v = v0 := by
            have := congrArg Prod.snd he
            simpa using this
          simp [mapGet, hv]
        · exfalso
          apply h1
          exact List.mem_map.mpr ⟨(k0, v), he, rfl⟩
      · intro hget
        simp only [mapGet, if_pos rfl] at hget
        have : v0 = v := by injection hget
        subst this
        exact List.mem_cons_self _ _
    · constructor
      · intro hmem
        rcases List.mem_cons.mp hmem with he | he
        · exfalso
          apply h
          have := congrArg Prod.fst he
          simpa using this.symm
        · simp only [mapGet, if_neg h]
          exact (ih h2 k v).mp he
      · intro hget
        simp only [mapGet, if_neg h] at hget
        exact List.mem_cons_of_mem _ ((ih h2 k v).mpr hget)

theorem mergeVectorDoc_keys_nodup (d : VectorDoc) (index : Nat) (mn mx : ℚ)
    (m : List (String × RerankEntry)) (h : (m.map Prod.fst).Nodup) :
    ((mergeVectorDoc d index mn mx m).map Prod.fst).Nodup := by
  unfold mergeVectorDoc
  cases mapGet m d.docId with
  | some existing => exact mapSet_keys_nodup m _ _ h
  | none => exact mapSet_keys_nodup m _ _ h

theorem insertBM25Docs_keys_nodup (mn mx : ℚ) :
    ∀ (ds : List BM25Doc) (index : Nat) (m : List (String × RerankEntry)),
      (m.map Prod.fst).Nodup →
      ((insertBM25Docs mn mx ds index m).map Prod.fst).Nodup := by
  intro ds
  induction ds with
  | nil =>
    intro index m h
    exact h
  | cons d ds2 ih =>
    intro index m h
    exact ih (index + 1) _ (mapSet_keys_nodup m _ _ h)

theorem insertVectorDocs_keys_nodup (mn mx : ℚ) :
    ∀ (ds : List VectorDoc) (index : Nat) (m : List (String × RerankEntry)),
      (m.map Prod.fst).Nodup →
      ((insertVectorDocs mn mx ds index m).map Prod.fst).Nodup := by
  intro ds
  induction ds with
  | nil =>
    intro index m h
    exact h
  | cons d ds2 ih =>
    intro index m h
    exact ih (index + 1) _ (mergeVectorDoc_keys_nodup d index mn mx m h)

theorem rerankCombine_keys_nodup (b : List BM25Doc) (v : List VectorDoc) :
    ((rerankCombine b v).map Prod.fst).Nodup := by
  unfold rerankCombine
  exact insertVectorDocs_keys_nodup _ _ v 0 _
    (insertBM25Docs_keys_nodup _ _ b 0 [] (by simp))

theorem rerankCombine_ranks (b : List BM25Doc) (v : List VectorDoc)
    (hb : (b.map (fun d => d.docId)).Nodup) (hv : (v.map (fun d => d.docId)).Nodup)
    (id : String) (e : RerankEntry)
    (h : mapGet (rerankCombine b v) id = some e) :
    e.bm25Rank = rankOf (b.map (fun d => d.docId)) id ∧
      e.vectorRank = rankOf (v.map (fun d => d.docId)) id := by
  have hrw : rerankCombine b v
      = insertVectorDocs (jsMathMin (v.map (fun r => r.vectorScore)) 0)
          (jsMathMax (v.map (fun r => r.vectorScore)) 1) v 0
          (insertBM25Docs (jsMathMin (b.map (fun r => r.bm25Score)) 0)
            (jsMathMax (b.map (fun r => r.bm25Score)) 1) b 0 []) := rfl
  rw [hrw] at h
  cases hcb : rankOf (b.map (fun d => d.docId)) id with
  | some rb =>
    obtain ⟨e1, he1, hbr1, hvr1⟩ := insertBM25Docs_get_rank _ _ b 0 [] id rb hb hcb
    cases hcv : rankOf (v.map (fun d => d.docId)) id with
    | some rv =>
      obtain ⟨e2, he2, hvr2, hbr2⟩ := insertVectorDocs_get_rank _ _ v 0 _ id rv hv hcv
      rw [he2] at h
      have he : e = e2 := by injection h with h2; exact h2.symm
      subst he
      rw [he1] at hbr2
      simp only [Option.bind] at hbr2
      refine ⟨?_, ?_⟩
      · rw [hbr2, hbr1]
        simp
      · rw [hvr2]
        simp
    | none =>
      have hnv : id ∉ v.map (fun d => d.docId) := (rankOf_eq_none _ _).mp hcv
      rw [insertVectorDocs_get_notmem _ _ v 0 _ id hnv] at h
      rw [he1] at h
      have he : e = e1 := by injection h with h2; exact h2.symm
      subst he
      exact ⟨by rw [hbr1]; simp, by rw [hvr1]⟩
  | none =>
    have hnb : id ∉ b.map (fun d => d.docId) := (rankOf_eq_none _ _).mp hcb
    have hm1 : mapGet (insertBM25Docs (jsMathMin (b.map (fun r => r.bm25Score)) 0)
        (jsMathMax (b.map (fun r => r.bm25Score)) 1) b 0 []) id = none := by
      rw [insertBM25Docs_get_notmem _ _ b 0 [] id hnb]
      rfl
    cases hcv : rankOf (v.map (fun d => d.docId)) id with
    | some rv =>
      obtain ⟨e2, he2, hvr2, hbr2⟩ := insertVectorDocs_get_rank _ _ v 0 _ id rv hv hcv
      rw [he2] at h
      have he : e = e2 := by injection h with h2; exact h2.symm
      subst he
      rw [hm1] at hbr2
      simp only [Option.bind] at hbr2
      exact ⟨hbr2, by rw [hvr2]; simp⟩
    | none =>
      exfalso
      have hnv : id ∉ v.map (fun d => d.docId) := (rankOf_eq_none _ _).mp hcv
      rw [insertVectorDocs_get_notmem _ _ v 0 _ id hnv, hm1] at h
      cases h

/-- C6: under RRF fusion, every candidate's fused score equals the sum over
both methods of `1 / (60 + rank_method)` where `rank_method` is the
candidate's 1-based rank in that method's result list, and a candidate
absent from a method contributes exactly 0 for that method's term
(document ids within each method's result list are distinct, as MongoDB
returns them). -/
theorem c6_rrf_fused_score (b : List BM25Doc) (v : List VectorDoc)
    (hb : (b.map (fun d => d.docId)).Nodup) (hv : (v.map (fun d => d.docId)).Nodup)
    (id : String) (fe : FusedEntry)
    (hmem : (id, fe) ∈ applyRRFFusion (rerankCombine b v)) :
    fe.fusedScore = claimedRRFContribution (b.map (fun d => d.docId)) id
      + claimedRRFContribution (v.map (fun d => d.docId)) id := by
  obtain ⟨p, hp, heq⟩ := List.mem_map.mp hmem
  obtain ⟨pid, e⟩ := p
  have hid : pid = id := by
    have := congrArg Prod.fst heq
    simpa using this
  subst hid
  have hfe : fe = { entry := e, fusedScore := rrfFusedScore e.bm25Rank e.vectorRank } := by
    have := congrArg Prod.snd heq
    simpa using this.symm
  subst hfe
  have hget : mapGet (rerankCombine b v) pid = some e :=
    (mem_iff_mapGet (rerankCombine b v) (rerankCombine_keys_nodup b v) pid e).mp hp
  obtain ⟨h1, h2⟩ := rerankCombine_ranks b v hb hv pid e hget
  show rrfFusedScore e.bm25Rank e.vectorRank = _
  unfold rrfFusedScore
  rw [h1, h2, rrfTermOf_rankOf, rrfTermOf_rankOf]


/-- C6 witness: a single BM25 hit with raw score 3 and no vector hits; its
fused score is 1/61 = 1/(60 + 1). -/
theorem c6_rrf_fused_score_witness :
    (([exampleBM25Doc] : List BM25Doc).map (fun d => d.docId)).Nodup ∧
      ((([] : List VectorDoc)).map (fun d => d.docId)).Nodup ∧
      (("x", exampleFusedEntry) ∈ applyRRFFusion (rerankCombine [exampleBM25Doc] [])) ∧
      exampleFusedEntry.fusedScore
        = claimedRRFContribution (([exampleBM25Doc] : List BM25Doc).map (fun d => d.docId)) "x"
          + claimedRRFContribution (([] : List VectorDoc).map (fun d => d.docId)) "x" := by
  have hev : applyRRFFusion (rerankCombine [exampleBM25Doc] ([] : List VectorDoc))
      = [("x", exampleFusedEntry)] := by
    norm_num [applyRRFFusion, rerankCombine, insertBM25Docs, insertVectorDocs, mkBM25Entry,
      exampleBM25Doc, exampleRerankEntry, exampleFusedEntry,
      mapSet, jsMathMin, jsMathMax, normalizeBM25, rrfFusedScore, rrfTermOf, min_def, max_def]
  have hmem : ("x", exampleFusedEntry)
      ∈ applyRRFFusion (rerankCombine [exampleBM25Doc] ([] : List VectorDoc)) := by
    rw [hev]
    exact List.mem_singleton_self _
  exact ⟨by simp, by simp, hmem,
    c6_rrf_fused_score [exampleBM25Doc] [] (by simp) (by simp) "x" _ hmem⟩

theorem mem_mapSet_elim {α : Type} :
    ∀ (m : List (String × α)) (k : String) (v : α) (p : String × α),
      p ∈ mapSet m k v → p ∈ m ∨ p = (k, v) := by
  intro m
  induction m with
  | nil =>
    intro k v p hp
    simp [mapSet] at hp
    exact Or.inr hp
  | cons hd tl ih =>
    intro k v p hp
    obtain ⟨k0, v0⟩ := hd
    by_cases h : k0 = k
    · simp only [mapSet, if_pos h] at hp
      rcases List.mem_cons.mp hp with h1 | h1
      · exact Or.inr h1
      · exact Or.inl (List.mem_cons_of_mem _ h1)
    · simp only [mapSet, if_neg h] at hp
      rcases List.mem_cons.mp hp with h1 | h1
      · exact Or.inl (by rw [h1]; exact List.mem_cons_self _ _)
      · rcases ih k v p h1 with h2 | h2
        · exact Or.inl (List.mem_cons_of_mem _ h2)
        · exact Or.inr h2

theorem mem_insertByHybridScoreDesc (x y : HybridEntry) :
    ∀ l : List HybridEntry, y ∈ insertByHybridScoreDesc x l ↔ y = x ∨ y ∈ l := by
  intro l
  induction l with
  | nil => simp [insertByHybridScoreDesc]
  | cons z zs ih =>
    by_cases h : x.hybridScore ≤ z.hybridScore
    · simp only [insertByHybridScoreDesc, if_pos h, List.mem_cons, ih]
      tauto
    · simp only [insertByHybridScoreDesc, if_neg h, List.mem_cons]

theorem mem_sortByHybridScoreDesc_aux (y : HybridEntry) :
    ∀ (l : List HybridEntry) (acc : List HybridEntry),
      y ∈ l.foldl (fun acc x => insertByHybridScoreDesc x acc) acc ↔ y ∈ acc ∨ y ∈ l := by
  intro l
  induction l with
  | nil =>
    intro acc
    simp
  | cons z zs ih =>
    intro acc
    simp only [List.foldl_cons, ih, mem_insertByHybridScoreDesc, List.mem_cons]
    tauto

theorem mem_sortByHybridScoreDesc (y : HybridEntry) (l : List HybridEntry) :
    y ∈ sortByHybridScoreDesc l ↔ y ∈ l := by
  unfold sortByHybridScoreDesc
  rw [mem_sortByHybridScoreDesc_aux]
  simp

theorem addVectorHybrid_vector_only (mn rng w : ℚ) :
    ∀ (ds : List VectorDoc) (m : List (String × HybridEntry)),
      (∀ p ∈ m, p.2.foundIn = "vector-only" ∧ p.2.hybridScore = p.2.vectorScoreNormalized) →
      (ds.map (fun d => d.docId)).Nodup →
      (∀ d ∈ ds, mapGet m d.docId = none) →
      ∀ p ∈ addVectorHybrid true mn rng w ds m,
        p.2.foundIn = "vector-only" ∧ p.2.hybridScore = p.2.vectorScoreNormalized := by
  intro ds
  induction ds with
  | nil =>
    intro m hm _ _ p hp
    exact hm p hp
  | cons d rest ih =>
    intro m hm hnd hclash p hp
    simp only [List.map_cons, List.nodup_cons] at hnd
    obtain ⟨hd1, hd2⟩ := hnd
    have hmd : mapGet m d.docId = none := hclash d (List.mem_cons_self _ _)
    have hstep : addVectorHybrid true mn rng w (d :: rest) m
        = addVectorHybrid true mn rng w rest
            (mapSet m d.docId
              { docId := d.docId
                bm25Score := 0
                bm25ScoreNormalized := 0
                vectorScore := d.vectorScore
                vectorScoreNormalized := (d.vectorScore - mn) / rng
                hybridScore := (d.vectorScore - mn) / rng
                foundIn := "vector-only" }) := by
      simp [addVectorHybrid, hmd]
    rw [hstep] at hp
    refine ih _ ?_ hd2 ?_ p hp
    · intro p2 hp2
      rcases mem_mapSet_elim m d.docId _ p2 hp2 with h1 | h1
      · exact hm p2 h1
      · rw [h1]
        exact ⟨rfl, rfl⟩
    · intro d2 hd2mem
      have hne : d.docId ≠ d2.docId := by
        intro h
        apply hd1
        rw [h]
        exact List.mem_map.mpr ⟨d2, hd2mem, rfl⟩
      rw [mapGet_mapSet_ne m d.docId d2.docId _ hne]
      exact hclash d2 (List.mem_cons_of_mem _ hd2mem)

/-- C2 counterexample: a fused (hybrid) query against the default test-case
collection (`useUserStories = false`) with the BM25 index missing and the
vector index present is rejected with an HTTP 400 validation error instead
of being answered vector-only: the fallback is gated on
`useUserStories`. -/
theorem c2_default_collection_counterexample :
    hybridSearch false false true (4/10) (6/10) 10 []
        [{ docId := "d1", vectorScore := 9/10 }]
      = .clientError 400 "bm25 index validation failed" := rfl

/-- C2 amended: only for user-stories queries (`useUserStories = true`)
does the hybrid endpoint degrade when the BM25 index is missing and the
vector index exists: the query is still answered, the response is marked
`searchType: 'vector-only'` with `bm25Skipped: true`, and every returned
result comes from vector ranking alone (`foundIn: 'vector-only'`, hybrid
score equal to its normalized vector score); for any other collection the
same situation fails the query with a 400 error. -/
theorem c2_userstories_vector_only_amended (wB wV : ℚ) (limit : Nat)
    (bm25Found : List BM25Doc) (vectorFound : List VectorDoc)
    (hv : (vectorFound.map (fun d => d.docId)).Nodup) :
    ∃ results, hybridSearch true false true wB wV limit bm25Found vectorFound
        = .success "vector-only" true results ∧
      ∀ r ∈ results, r.foundIn = "vector-only" ∧ r.hybridScore = r.vectorScoreNormalized := by
  refine ⟨_, rfl, ?_⟩
  intro r hr
  have hr2 := List.take_subset _ _ hr
  rw [mem_sortByHybridScoreDesc] at hr2
  obtain ⟨p, hp, hrp⟩ := List.mem_map.mp hr2
  have := addVectorHybrid_vector_only
    (jsMathMin (vectorFound.map (fun r => r.vectorScore)) 0)
    (if jsMathMax (vectorFound.map (fun r => r.vectorScore)) 1
        - jsMathMin (vectorFound.map (fun r => r.vectorScore)) 0 = 0 then 1
      else jsMathMax (vectorFound.map (fun r => r.vectorScore)) 1
        - jsMathMin (vectorFound.map (fun r => r.vectorScore)) 0)
    wV vectorFound [] (by simp) hv (by simp [mapGet]) p hp
  rw [← hrp]
  exact this

/-- C2 witness: one vector hit against a user-stories store whose BM25
index is missing. -/
theorem c2_userstories_vector_only_amended_witness :
    ((([{ docId := "d1", vectorScore := 9/10 }] : List VectorDoc).map
        (fun d => d.docId)).Nodup ∧
      ∃ results, hybridSearch true false true (4/10) (6/10) 10 []
          [{ docId := "d1", vectorScore := 9/10 }]
        = .success "vector-only" true results ∧
        ∀ r ∈ results, r.foundIn = "vector-only"
          ∧ r.hybridScore = r.vectorScoreNormalized) :=
  ⟨by simp, c2_userstories_vector_only_amended (4/10) (6/10) 10 []
    [{ docId := "d1", vectorScore := 9/10 }] (by simp)⟩
